import Mathlib

set_option maxRecDepth 10000
set_option maxHeartbeats 1000000

/-!
Verification of the MPN/PDF validation pipeline (PDF_MPN_VALIDATION_ONLY.py).

The embedding models text as `List Char` (ASCII, matching the inputs the
pipeline handles).  External effects are modelled as oracle parameters:
the HTTP layer (`requests.get` plus `raise_for_status`) is a function
returning `Except FetchError β`, and the PDF text layer (`fitz.open`
followed by joining the page texts) is a function returning
`Option (List Char)`.  The Python dict `pdfData` is an association list
with unique keys (`insertA` overwrites).  The pandas table is a list of
rows; each worker of `PN_Validation_New` writes only the verdict fields
of its own row, which the row-wise `map` reflects.
-/

/-- Word character of the regex class `\w` (ASCII fragment): letters,
digits and underscore. -/
def isWordChar (c : Char) : Bool := c.isAlphanum || c == '_'

/-- Whitespace stripped by Python's `str.strip` (ASCII fragment). -/
def isPySpace (c : Char) : Bool :=
  c == ' ' || c == '\t' || c == '\n' || c == '\r' || c == '\x0B' || c == '\x0C'

/-- Python's `str.strip`: drop whitespace from both ends. -/
def pyStrip (s : List Char) : List Char :=
  ((s.dropWhile isPySpace).reverse.dropWhile isPySpace).reverse

/-- Case-insensitive test that `pat` starts `text` (the `re.IGNORECASE`
character comparison, by lowercasing both sides). -/
def ciPref : List Char → List Char → Bool
  | [], _ => true
  | _ :: _, [] => false
  | p :: ps, t :: ts => (p.toLower == t.toLower) && ciPref ps ts

/-- Model of `re.search(re.escape(part), values, re.IGNORECASE)`: scan the
positions of `text` left to right and return the slice covered by the
first case-insensitive occurrence of the literal pattern (the value of
`exact.group(0)`). -/
def ciFind (pat : List Char) : List Char → Option (List Char)
  | [] => if ciPref pat [] then some [] else none
  | c :: ts =>
    if ciPref pat (c :: ts) then some ((c :: ts).take pat.length)
    else ciFind pat ts

/-- Model of `re.split('[ \n]', values)`: split at every single space or
newline, keeping empty pieces. -/
def splitSpNl : List Char → List (List Char)
  | [] => [[]]
  | c :: rest =>
    if c = ' ' ∨ c = '\n' then [] :: splitSpNl rest
    else
      match splitSpNl rest with
      | [] => [[c]]
      | w :: ws => (c :: w) :: ws

/-- Word-boundary `\b` between an optional previous and next character:
exactly one side is a word character. -/
def wordB (prev next : Option Char) : Bool :=
  (match prev with | some c => isWordChar c | none => false) !=
  (match next with | some c => isWordChar c | none => false)

/-- One backtracking attempt of `\b\w*part\w*\b` at the current position,
with the leading `\w*` consuming exactly `k` characters.  `prev` is the
character before the current position (for `\b`). -/
def attemptK (part s : List Char) (prev : Option Char) (k : Nat) : Option (List Char) :=
  if ciPref part (s.drop k) then
    let m := k + part.length
    let rest := s.drop m
    let trail := (rest.takeWhile isWordChar).length
    if 0 < trail then some (s.take (m + trail))
    else
      let lastC : Option Char := if m = 0 then prev else (s.take m).getLast?
      if wordB lastC rest.head? then some (s.take m) else none
  else none

/-- Greedy backtracking on the leading `\w*`: try `k` word characters,
largest first, as the regex engine does. -/
def tryKs (part s : List Char) (prev : Option Char) : Nat → Option (List Char)
  | 0 => attemptK part s prev 0
  | k + 1 =>
    match attemptK part s prev (k + 1) with
    | some m => some m
    | none => tryKs part s prev k

/-- Match of `\b\w*part\w*\b` (case-insensitive) anchored at the current
position, or `none`. -/
def matchOnce (part : List Char) (prev : Option Char) (s : List Char) : Option (List Char) :=
  if wordB prev s.head? then tryKs part s prev ((s.takeWhile isWordChar).length)
  else none

/-- Scanner of `re.findall`: leftmost non-overlapping matches; an empty
match is recorded and the scan advances one character.  The fuel is an
upper bound on the number of scan steps (each step consumes at least one
character of `s`). -/
def findAllGo (part : List Char) : Nat → Option Char → List Char → List (List Char)
  | 0, _, _ => []
  | fuel + 1, prev, s =>
    match matchOnce part prev s with
    | some (c :: ms) =>
      (c :: ms) :: findAllGo part fuel ((c :: ms).getLast?) (s.drop (c :: ms).length)
    | some [] =>
      [] :: (match s with
        | [] => []
        | c :: rest => findAllGo part fuel (some c) rest)
    | none =>
      match s with
      | [] => []
      | c :: rest => findAllGo part fuel (some c) rest

/-- Model of `re.findall(r'\b\w*' + re.escape(part) + r'\w*\b', values,
re.IGNORECASE)`. -/
def findAllSim (part text : List Char) : List (List Char) :=
  findAllGo part (text.length + 1) none text

/-- Membership-based deduplication, modelling the Python set comprehension
`{match.strip() for match in ...}` (set semantics; order irrelevant). -/
def dedupGo : List (List Char) → List (List Char) → List (List Char)
  | _, [] => []
  | seen, x :: xs => if x ∈ seen then dedupGo seen xs else x :: dedupGo (x :: seen) xs

def dedupKeepFirst (l : List (List Char)) : List (List Char) := dedupGo [] l

/-- Length of the longest common run of `a.drop i` and `b.drop j`. -/
def commonRunLen : List Char → List Char → Nat
  | a :: as, b :: bs => if a = b then commonRunLen as bs + 1 else 0
  | _, _ => 0

/-- difflib `SequenceMatcher.find_longest_match` on the whole sequences
(no junk: autojunk only acts on queries of 200 or more characters):
the longest matching block, and among blocks of maximal size the one
starting earliest in `a`, then earliest in `b`.  Returns `(i, j, size)`. -/
def bestBlock (a b : List Char) : Nat × Nat × Nat :=
  (List.range a.length).foldl (fun best i =>
    (List.range b.length).foldl (fun best j =>
      let k := commonRunLen (a.drop i) (b.drop j)
      if best.2.2 < k then (i, j, k) else best) best) (0, 0, 0)

/-- Total size of the matching blocks of `SequenceMatcher.get_matching_blocks`:
recursively take the longest block and recurse on both sides.  The fuel is
an upper bound on `a.length`, which strictly decreases at each call. -/
def mtGo : Nat → List Char → List Char → Nat
  | 0, _, _ => 0
  | fuel + 1, a, b =>
    let bb := bestBlock a b
    if bb.2.2 = 0 then 0
    else mtGo fuel (a.take bb.1) (b.take bb.2.1) + bb.2.2 +
         mtGo fuel (a.drop (bb.1 + bb.2.2)) (b.drop (bb.2.1 + bb.2.2))

/-- The `M` of difflib's `ratio = 2.0 * M / T`. -/
def matchingTotal (a b : List Char) : Nat := mtGo a.length a b

/-- The ratio `2*M / T` as a numerator/denominator pair of naturals;
difflib defines the ratio of two empty sequences to be `1.0`. -/
def ratioPair (x w : List Char) : Nat × Nat :=
  let t := x.length + w.length
  if t = 0 then (1, 1) else (2 * matchingTotal x w, t)

/-- Ratio order between two numerator/denominator pairs. -/
def ratLe (p q : Nat × Nat) : Prop := p.1 * q.2 ≤ q.1 * p.2

/-- Cutoff test `ratio >= 0.65` of `get_close_matches` (the chained
`real_quick_ratio`/`quick_ratio` tests are upper bounds of `ratio`, so the
conjunction is equivalent to the final test). -/
def passesCutoff (x w : List Char) : Bool :=
  decide (65 * (ratioPair x w).2 ≤ 100 * (ratioPair x w).1)

/-- Python string comparison (by code points), used by `heapq.nlargest` to
break ties between candidates of equal ratio. -/
def strLt : List Char → List Char → Bool
  | [], [] => false
  | [], _ :: _ => true
  | _ :: _, [] => false
  | a :: as, b :: bs =>
    if a.val < b.val then true
    else if b.val < a.val then false
    else strLt as bs

/-- Choice between the current best candidate `b` and a new candidate `e`:
`nlargest` keeps the larger `(score, string)` pair. -/
def pickOne (b e : (Nat × Nat) × List Char) : (Nat × Nat) × List Char :=
  if b.1.1 * e.1.2 < e.1.1 * b.1.2 ∨
     (b.1.1 * e.1.2 = e.1.1 * b.1.2 ∧ strLt b.2 e.2 = true) then e else b

def pickBest :
    Option ((Nat × Nat) × List Char) → List ((Nat × Nat) × List Char) →
    Option ((Nat × Nat) × List Char)
  | acc, [] => acc
  | none, e :: rest => pickBest (some e) rest
  | some b, e :: rest => pickBest (some (pickOne b e)) rest

/-- Model of `difflib.get_close_matches(word, possibilities, n=1, cutoff=0.65)`
followed by taking the single element: keep the candidates whose ratio
reaches the cutoff and return the largest by `(ratio, string)`. -/
def getCloseMatches (word : List Char) (possibilities : List (List Char)) :
    Option (List Char) :=
  Option.map Prod.snd (pickBest none (possibilities.filterMap (fun x =>
    if passesCutoff x word then some (ratioPair x word, x) else none)))

/-- Association list with unique keys, modelling the Python dict. -/
def lookupA : List (List Char × List Char) → List Char → Option (List Char)
  | [], _ => none
  | (k, v) :: rest, key => if k = key then some v else lookupA rest key

def insertA : List (List Char × List Char) → List Char → List Char →
    List (List Char × List Char)
  | [], k, v => [(k, v)]
  | (k0, v0) :: rest, k, v =>
    if k0 = k then (k0, v) :: rest else (k0, v0) :: insertA rest k v

/-- Verdict of one part: the source stores the status string and the two
optional result fields in the row's STATUS/EQUIVALENT/SIMILARS columns.
The similars set (a Python set joined with `|`) is kept as a
duplicate-free list. -/
structure Verdict where
  status : String
  equivalent : Option (List Char)
  similars : Option (List (List Char))

/-- Embedding of the worker `SET_DESC` of `PN_Validation_New`, acting on
one row's part identifier and document reference against the corpus. -/
def SET_DESC (pdf_data : List (List Char × List Char)) (part pdf_url : List Char) :
    Verdict :=
  match lookupA pdf_data pdf_url with
  | none => { status := "May be Broken", equivalent := none, similars := none }
  | some values =>
    if values.length ≤ 100 then
      { status := "OCR", equivalent := none, similars := none }
    else
      match ciFind part values with
      | some matched =>
        let sims := dedupKeepFirst ((findAllSim part values).map pyStrip)
        { status := "Exact", equivalent := some matched,
          similars := if sims.isEmpty then none else some sims }
      | none =>
        match getCloseMatches part (splitSpNl values) with
        | some tok =>
          { status := "Includes or Missed Suffixes", equivalent := some tok,
            similars := none }
        | none => { status := "Not Found", equivalent := none, similars := none }

/-- One input row: the part-identifier column, the document-reference
column, and the values of the remaining columns. -/
structure PartRow where
  part : List Char
  ref : List Char
  others : List (List Char)

/-- One output row: the input columns plus the three written columns. -/
structure ResultRow where
  part : List Char
  ref : List Char
  others : List (List Char)
  STATUS : String
  EQUIVALENT : Option (List Char)
  SIMILARS : Option (List (List Char))

/-- Embedding of `PN_Validation_New`: every row gets its own verdict; the
workers are independent and each one writes only its own output slot, so
the concurrent execution is the row-wise map. -/
def PN_Validation_New (pdf_data : List (List Char × List Char))
    (rows : List PartRow) : List ResultRow :=
  rows.map (fun r =>
    let v := SET_DESC pdf_data r.part r.ref
    { part := r.part, ref := r.ref, others := r.others,
      STATUS := v.status, EQUIVALENT := v.equivalent, SIMILARS := v.similars })

/-- Failure causes absorbed by `GetPDFResponse`: timeout, non-2xx status
(raised by `raise_for_status`), or transport error. -/
inductive FetchError where
  | timeout
  | httpStatus (code : Nat)
  | transport
deriving DecidableEq

/-- Embedding of `GetPDFResponse`: the HTTP layer is an oracle; on success
the reference is paired with the payload, on any failure with `none`.
The Python `except` catches every exception, so the function is total. -/
def GetPDFResponse {β : Type} (httpGet : List Char → Except FetchError β)
    (pdf : List Char) : List Char × Option β :=
  match httpGet pdf with
  | Except.ok content => (pdf, some content)
  | Except.error _ => (pdf, none)

/-- Batching of `GetPDFText`: chunks of 100 in input order.  The fuel is
an upper bound on the input length. -/
def chunksGo {α : Type} : Nat → List α → List (List α)
  | 0, _ => []
  | _, [] => []
  | fuel + 1, x :: xs => ((x :: xs).take 100) :: chunksGo fuel ((x :: xs).drop 100)

def chunks100 {α : Type} (l : List α) : List (List α) := chunksGo l.length l

/-- Embedding of `GetPDFText`: fetch each chunk, then extract the text of
each successfully fetched payload (`fitzText` models `fitz.open` plus the
newline join of the page texts); failed references are skipped. -/
def GetPDFText {β : Type} (httpGet : List Char → Except FetchError β)
    (fitzText : β → Option (List Char)) (pdfs : List (List Char)) :
    List (List Char × List Char) :=
  (chunks100 pdfs).foldl (fun pdfData chunk =>
    (chunk.map (GetPDFResponse httpGet)).foldl (fun pdfData pb =>
      match pb.2 with
      | some byt =>
        match fitzText byt with
        | some text => insertA pdfData pb.1 text
        | none => pdfData
      | none => pdfData) pdfData) []

lemma ciPref_length {pat text : List Char} (h : ciPref pat text = true) :
    pat.length ≤ text.length := by
  induction pat generalizing text with
  | nil => simp
  | cons p ps ih =>
    cases text with
    | nil => simp [ciPref] at h
    | cons t ts =>
      simp only [ciPref, Bool.and_eq_true] at h
      simpa [Nat.succ_le_succ_iff] using ih h.2

lemma ciPref_take {pat text : List Char} (h : ciPref pat text = true) :
    (text.take pat.length).map Char.toLower = pat.map Char.toLower := by
  induction pat generalizing text with
  | nil => simp
  | cons p ps ih =>
    cases text with
    | nil => simp [ciPref] at h
    | cons t ts =>
      simp only [ciPref, Bool.and_eq_true, beq_iff_eq] at h
      simp [List.take, List.map, ih h.2, h.1]

lemma ciPref_of_map_eq {pat m : List Char} (t : List Char)
    (h : m.map Char.toLower = pat.map Char.toLower) :
    ciPref pat (m ++ t) = true := by
  induction pat generalizing m with
  | nil =>
    cases m with
    | nil => simp [ciPref]
    | cons c ms => simp at h
  | cons p ps ih =>
    cases m with
    | nil => simp at h
    | cons c ms =>
      simp only [List.map, List.cons.injEq] at h
      simp [ciPref, h.1, ih h.2]

lemma ciFind_sound {pat text m : List Char} (h : ciFind pat text = some m) :
    (∃ s t, text = s ++ m ++ t) ∧ m.map Char.toLower = pat.map Char.toLower := by
  induction text with
  | nil =>
    by_cases hp : ciPref pat [] = true
    · cases pat with
      | nil =>
        simp [ciFind] at h
        exact ⟨⟨[], [], by simp [h]⟩, by simp [h]⟩
      | cons p ps => simp [ciPref] at hp
    · simp [ciFind, hp] at h
  | cons c ts ih =>
    by_cases hp : ciPref pat (c :: ts) = true
    · rw [ciFind, if_pos hp] at h
      have hm := Option.some.inj h
      refine ⟨⟨[], (c :: ts).drop pat.length, ?_⟩, ?_⟩
      · rw [← hm]; simp [List.take_append_drop]
      · rw [← hm]; exact ciPref_take hp
    · rw [ciFind, if_neg hp] at h
      obtain ⟨⟨s, t, hst⟩, hmap⟩ := ih h
      exact ⟨⟨c :: s, t, by simp [hst]⟩, hmap⟩

lemma ciFind_isSome_of_ciPref {pat text : List Char} (h : ciPref pat text = true) :
    (ciFind pat text).isSome := by
  cases text with
  | nil => simp [ciFind, h]
  | cons c ts => simp [ciFind, h]

lemma ciFind_complete {pat text : List Char} (s m t : List Char)
    (hst : text = s ++ m ++ t) (hmap : m.map Char.toLower = pat.map Char.toLower) :
    (ciFind pat text).isSome := by
  induction s generalizing text with
  | nil =>
    subst hst
    exact ciFind_isSome_of_ciPref (ciPref_of_map_eq t hmap)
  | cons c srest ih =>
    subst hst
    show (ciFind pat (c :: (srest ++ m ++ t))).isSome
    by_cases hp : ciPref pat (c :: (srest ++ m ++ t)) = true
    · exact ciFind_isSome_of_ciPref hp
    · rw [ciFind, if_neg hp]
      exact ih rfl

/-- C1: for a part scoped to a document in the corpus whose text is longer
than 100 characters, if the part identifier occurs verbatim
(case-insensitively, as a literal pattern) as a substring of the text,
the verdict status is `Exact` ("Exact") and the equivalent equals the
literal matched text (a substring of the document text that matches the
identifier case-insensitively). -/
theorem c1_scoped_exact (corpus : List (List Char × List Char))
    (part ref text m : List Char)
    (hdoc : lookupA corpus ref = some text) (hlen : 100 < text.length)
    (hocc : ∃ s t, text = s ++ m ++ t)
    (hm : m.map Char.toLower = part.map Char.toLower) :
    (SET_DESC corpus part ref).status = "Exact" ∧
    ∃ e, (SET_DESC corpus part ref).equivalent = some e ∧
      (∃ s t, text = s ++ e ++ t) ∧
      e.map Char.toLower = part.map Char.toLower := by
  obtain ⟨s, t, hst⟩ := hocc
  have hsome := ciFind_complete s m t hst hm
  obtain ⟨e, he⟩ := Option.isSome_iff_exists.mp hsome
  obtain ⟨hinf, hmap⟩ := ciFind_sound he
  have hnle : ¬ text.length ≤ 100 := by omega
  refine ⟨?_, e, ?_, hinf, hmap⟩ <;> simp [SET_DESC, hdoc, hnle, he]

def refU : List Char := "u".toList

def c1Text : List Char := "xyz ".toList ++ List.replicate 100 'q'

def c1Corpus : List (List Char × List Char) := [(refU, c1Text)]

theorem c1_scoped_exact_witness :
    (SET_DESC c1Corpus "XYZ".toList refU).status = "Exact" ∧
    ∃ e, (SET_DESC c1Corpus "XYZ".toList refU).equivalent = some e ∧
      (∃ s t, c1Text = s ++ e ++ t) ∧
      e.map Char.toLower = "XYZ".toList.map Char.toLower :=
  c1_scoped_exact c1Corpus "XYZ".toList refU c1Text "xyz".toList rfl (by decide)
    ⟨[], " ".toList ++ List.replicate 100 'q', by decide⟩ (by decide)

/-- C3: for a part scoped to a document present in the corpus whose text
has length at most 100, the verdict status is `Unreadable` ("OCR") and
the equivalent and similars fields are absent. -/
theorem c3_short_text (corpus : List (List Char × List Char))
    (part ref text : List Char)
    (hdoc : lookupA corpus ref = some text) (hlen : text.length ≤ 100) :
    (SET_DESC corpus part ref).status = "OCR" ∧
    (SET_DESC corpus part ref).equivalent = none ∧
    (SET_DESC corpus part ref).similars = none := by
  refine ⟨?_, ?_, ?_⟩ <;> simp [SET_DESC, hdoc, hlen]

def c3Text : List Char := "tiny".toList

theorem c3_short_text_witness :
    (SET_DESC [(refU, c3Text)] "tin".toList refU).status = "OCR" ∧
    (SET_DESC [(refU, c3Text)] "tin".toList refU).equivalent = none ∧
    (SET_DESC [(refU, c3Text)] "tin".toList refU).similars = none :=
  c3_short_text [(refU, c3Text)] "tin".toList refU c3Text rfl (by decide)

/-- C4: for a part whose scoped document reference is absent from the
corpus mapping, the verdict status is `MissingDocument` ("May be Broken"),
regardless of the part identifier and of the rest of the corpus. -/
theorem c4_missing_document (corpus : List (List Char × List Char))
    (part ref : List Char) (hdoc : lookupA corpus ref = none) :
    (SET_DESC corpus part ref).status = "May be Broken" ∧
    (SET_DESC corpus part ref).equivalent = none ∧
    (SET_DESC corpus part ref).similars = none := by
  refine ⟨?_, ?_, ?_⟩ <;> simp [SET_DESC, hdoc]

theorem c4_missing_document_witness :
    (SET_DESC [(refU, c1Text)] "p".toList "v".toList).status = "May be Broken" ∧
    (SET_DESC [(refU, c1Text)] "p".toList "v".toList).equivalent = none ∧
    (SET_DESC [(refU, c1Text)] "p".toList "v".toList).similars = none :=
  c4_missing_document [(refU, c1Text)] "p".toList "v".toList (by decide)

/-- C10: with an empty part identifier and a scoped document present in
the corpus with text longer than 100 characters, the verdict status is
`Exact` with an empty-string equivalent: the empty literal pattern
matches trivially at position zero. -/
theorem c10_empty_part (corpus : List (List Char × List Char))
    (ref text : List Char)
    (hdoc : lookupA corpus ref = some text) (hlen : 100 < text.length) :
    (SET_DESC corpus [] ref).status = "Exact" ∧
    (SET_DESC corpus [] ref).equivalent = some [] := by
  have hfind : ciFind [] text = some [] := by
    cases text with
    | nil => simp at hlen
    | cons c ts => simp [ciFind, ciPref]
  have hnle : ¬ text.length ≤ 100 := by omega
  constructor <;> simp [SET_DESC, hdoc, hnle, hfind]

def aText101 : List Char := List.replicate 101 'a'

theorem c10_empty_part_witness :
    (SET_DESC [(refU, aText101)] [] refU).status = "Exact" ∧
    (SET_DESC [(refU, aText101)] [] refU).equivalent = some [] :=
  c10_empty_part [(refU, aText101)] refU aText101 rfl (by decide)

def c2Text : List Char := "ABC-123-X OK ABC-123-Y".toList

def c2Corpus : List (List Char × List Char) := [(refU, c2Text)]

/-- C2, counterexample: on the claimed input (document text
"ABC-123-X OK ABC-123-Y", part "ABC-123") the text has length 22, which is
at most 100, so the code returns status "OCR" (`Unreadable`) with no
equivalent and no similars — not `Exact` as the claim states. -/
theorem c2_scenario_counterexample :
    (SET_DESC c2Corpus "ABC-123".toList refU).status = "OCR" ∧
    (SET_DESC c2Corpus "ABC-123".toList refU).status ≠ "Exact" ∧
    (SET_DESC c2Corpus "ABC-123".toList refU).equivalent = none ∧
    (SET_DESC c2Corpus "ABC-123".toList refU).similars = none :=
  ⟨rfl, by decide, rfl, rfl⟩

def c2TextPadded : List Char := c2Text ++ List.replicate 100 ' '

def c2CorpusPadded : List (List Char × List Char) := [(refU, c2TextPadded)]

/-- C2, amended: for the same token content padded past the length
threshold (the 22-character text followed by 100 spaces, length 122 >
100), the status is `Exact` ("Exact") and the equivalent is "ABC-123";
the similars set, however, is exactly the singleton set of "ABC-123":
the similars regex `\b\w*part\w*\b` extends a match only through `\w`
characters, and `-` is not a word character, so the hyphenated
extensions "ABC-123-X" and "ABC-123-Y" are never returned whole. -/
theorem c2_scenario_amended :
    (SET_DESC c2CorpusPadded "ABC-123".toList refU).status = "Exact" ∧
    (SET_DESC c2CorpusPadded "ABC-123".toList refU).equivalent =
      some ("ABC-123".toList) ∧
    (SET_DESC c2CorpusPadded "ABC-123".toList refU).similars =
      some ["ABC-123".toList] :=
  ⟨rfl, rfl, rfl⟩

/-- C8, counterexample: with an empty part identifier and a present
document of 101 characters, the literal search of the empty pattern
succeeds, so the status is "Exact" (`Exact`) while the equivalent is the
empty string — refuting the invariant that status `Exact` implies a
non-empty equivalent value. -/
theorem c8_invariant_counterexample :
    (SET_DESC [(refU, aText101)] [] refU).status = "Exact" ∧
    (SET_DESC [(refU, aText101)] [] refU).equivalent = some [] ∧
    ¬ (∃ e, (SET_DESC [(refU, aText101)] [] refU).equivalent = some e ∧ e ≠ []) := by
  refine ⟨rfl, rfl, ?_⟩
  rintro ⟨e, he, hne⟩
  have : e = [] := by
    have h0 : (SET_DESC [(refU, aText101)] [] refU).equivalent = some [] := rfl
    rw [h0] at he
    exact (Option.some.inj he).symm
  exact hne this

lemma ratLe_refl (p : Nat × Nat) : ratLe p p := Nat.le_refl _

lemma ratLe_trans {p q r : Nat × Nat} (hq : 0 < q.2)
    (h1 : ratLe p q) (h2 : ratLe q r) : ratLe p r := by
  unfold ratLe at *
  have key : p.1 * r.2 * q.2 ≤ r.1 * p.2 * q.2 := by
    calc p.1 * r.2 * q.2 = p.1 * q.2 * r.2 := by ring
    _ ≤ q.1 * p.2 * r.2 := mul_le_mul_right' h1 _
    _ = q.1 * r.2 * p.2 := by ring
    _ ≤ r.1 * q.2 * p.2 := mul_le_mul_right' h2 _
    _ = r.1 * p.2 * q.2 := by ring
  exact Nat.le_of_mul_le_mul_right key hq

lemma ratioPair_den_pos (x w : List Char) : 0 < (ratioPair x w).2 := by
  unfold ratioPair
  by_cases h : x.length + w.length = 0
  · simp [h]
  · simp [h, Nat.pos_of_ne_zero h]

lemma pickOne_cases (b e : (Nat × Nat) × List Char) :
    pickOne b e = b ∨ pickOne b e = e := by
  unfold pickOne
  split
  · exact Or.inr rfl
  · exact Or.inl rfl

lemma pickOne_ge_left (b e : (Nat × Nat) × List Char) :
    ratLe b.1 (pickOne b e).1 := by
  unfold pickOne
  split
  · rename_i h
    rcases h with h | ⟨h, _⟩
    · exact Nat.le_of_lt h
    · exact Nat.le_of_eq h
  · exact ratLe_refl _

lemma pickOne_ge_right (b e : (Nat × Nat) × List Char) :
    ratLe e.1 (pickOne b e).1 := by
  unfold pickOne
  split
  · exact ratLe_refl _
  · rename_i h
    have h1 : ¬ b.1.1 * e.1.2 < e.1.1 * b.1.2 := fun hc => h (Or.inl hc)
    exact Nat.le_of_not_lt h1

lemma pickBest_some_spec :
    ∀ (l : List ((Nat × Nat) × List Char)) (b r : (Nat × Nat) × List Char),
    0 < b.1.2 → (∀ e ∈ l, 0 < e.1.2) → pickBest (some b) l = some r →
    ((r = b ∨ r ∈ l) ∧ 0 < r.1.2 ∧ ratLe b.1 r.1 ∧ ∀ e ∈ l, ratLe e.1 r.1) := by
  intro l
  induction l with
  | nil =>
    intro b r hb _ h
    have hrb : b = r := Option.some.inj h
    subst hrb
    exact ⟨Or.inl rfl, hb, ratLe_refl _, by simp⟩
  | cons e rest ih =>
    intro b r hb hl h
    have he : 0 < e.1.2 := hl e (List.mem_cons_self e rest)
    have hb' : 0 < (pickOne b e).1.2 := by
      rcases pickOne_cases b e with hc | hc <;> rw [hc]
      · exact hb
      · exact he
    have hrest : ∀ x ∈ rest, 0 < x.1.2 := fun x hx => hl x (List.mem_cons_of_mem e hx)
    obtain ⟨hmem, hrpos, hge, hall⟩ := ih (pickOne b e) r hb' hrest h
    refine ⟨?_, hrpos, ?_, ?_⟩
    · rcases hmem with hm | hm
      · rcases pickOne_cases b e with hc | hc <;> rw [hc] at hm
        · exact Or.inl hm
        · exact Or.inr (hm ▸ List.mem_cons_self e rest)
      · exact Or.inr (List.mem_cons_of_mem e hm)
    · exact ratLe_trans hb' (pickOne_ge_left b e) hge
    · intro x hx
      rcases List.mem_cons.mp hx with hm | hm
      · subst hm
        exact ratLe_trans hb' (pickOne_ge_right b x) hge
      · exact hall x hm

lemma pickBest_none_spec (l : List ((Nat × Nat) × List Char))
    (r : (Nat × Nat) × List Char)
    (hl : ∀ e ∈ l, 0 < e.1.2) (h : pickBest none l = some r) :
    r ∈ l ∧ ∀ e ∈ l, ratLe e.1 r.1 := by
  cases l with
  | nil => exact absurd h (by simp [pickBest])
  | cons e rest =>
    have he : 0 < e.1.2 := hl e (List.mem_cons_self e rest)
    have hrest : ∀ x ∈ rest, 0 < x.1.2 := fun x hx => hl x (List.mem_cons_of_mem e hx)
    obtain ⟨hmem, _, hge, hall⟩ := pickBest_some_spec rest e r he hrest h
    refine ⟨?_, ?_⟩
    · rcases hmem with hm | hm
      · exact hm ▸ List.mem_cons_self e rest
      · exact List.mem_cons_of_mem e hm
    · intro x hx
      rcases List.mem_cons.mp hx with hm | hm
      · exact hm ▸ hge
      · exact hall x hm

lemma ratLe_of_cutoff {p q : Nat × Nat}
    (hp : ¬ 65 * p.2 ≤ 100 * p.1) (hq : 65 * q.2 ≤ 100 * q.1) : ratLe p q := by
  unfold ratLe
  have h1 : 100 * p.1 ≤ 65 * p.2 := Nat.le_of_lt (Nat.lt_of_not_le hp)
  have h2 : (100 * p.1) * (65 * q.2) ≤ (65 * p.2) * (100 * q.1) :=
    Nat.mul_le_mul h1 hq
  have h3 : 6500 * (p.1 * q.2) ≤ 6500 * (q.1 * p.2) := by
    calc 6500 * (p.1 * q.2) = (100 * p.1) * (65 * q.2) := by ring
    _ ≤ (65 * p.2) * (100 * q.1) := h2
    _ = 6500 * (q.1 * p.2) := by ring
  exact Nat.le_of_mul_le_mul_left h3 (by norm_num)

lemma getCloseMatches_spec_some (word : List Char) (poss : List (List Char))
    (tok : List Char) (h : getCloseMatches word poss = some tok) :
    tok ∈ poss ∧ passesCutoff tok word = true ∧
    ∀ u ∈ poss, ratLe (ratioPair u word) (ratioPair tok word) := by
  unfold getCloseMatches at h
  set scored := poss.filterMap (fun x =>
    if passesCutoff x word then some (ratioPair x word, x) else none) with hscored
  have hmemscored : ∀ e ∈ scored, 0 < e.1.2 ∧ e.2 ∈ poss ∧
      passesCutoff e.2 word = true ∧ e.1 = ratioPair e.2 word := by
    intro e he
    rw [hscored] at he
    obtain ⟨x, hx, hfx⟩ := List.mem_filterMap.mp he
    by_cases hc : passesCutoff x word = true
    · rw [if_pos hc] at hfx
      have hex := Option.some.inj hfx
      rw [← hex]
      exact ⟨ratioPair_den_pos x word, hx, hc, rfl⟩
    · rw [if_neg hc] at hfx
      exact absurd hfx (by simp)
  rcases hpb : pickBest none scored with _ | pr
  · rw [hpb] at h; simp at h
  · rw [hpb] at h
    have htok : pr.2 = tok := by simpa using h
    obtain ⟨hprmem, hmax⟩ := pickBest_none_spec scored pr
      (fun e he => (hmemscored e he).1) hpb
    obtain ⟨_, hmem2, hcut2, hpr1⟩ := hmemscored pr hprmem
    refine ⟨htok ▸ hmem2, htok ▸ hcut2, ?_⟩
    intro u hu
    have hgoal1 : ratioPair tok word = pr.1 := by rw [hpr1, htok]
    rw [hgoal1]
    by_cases hcu : passesCutoff u word = true
    · have huscored : (ratioPair u word, u) ∈ scored := by
        rw [hscored]
        exact List.mem_filterMap.mpr ⟨u, hu, by rw [if_pos hcu]⟩
      exact hmax (ratioPair u word, u) huscored
    · have hcutpr : 65 * pr.1.2 ≤ 100 * pr.1.1 := by
        have := hcut2
        unfold passesCutoff at this
        rw [hpr1]
        exact of_decide_eq_true this
      have hcutu : ¬ 65 * (ratioPair u word).2 ≤ 100 * (ratioPair u word).1 := by
        intro hc
        exact hcu (by unfold passesCutoff; exact decide_eq_true hc)
      exact ratLe_of_cutoff hcutu hcutpr

lemma getCloseMatches_spec_none (word : List Char) (poss : List (List Char))
    (h : ∀ u ∈ poss, passesCutoff u word = false) :
    getCloseMatches word poss = none := by
  unfold getCloseMatches
  have hnil : poss.filterMap (fun x =>
      if passesCutoff x word then some (ratioPair x word, x) else none) = [] := by
    rw [List.filterMap_eq_nil_iff]
    intro x hx
    rw [h x hx]
    simp
  rw [hnil]
  rfl

lemma ciFind_length {pat text m : List Char} (h : ciFind pat text = some m) :
    m.length = pat.length := by
  have hmap := congrArg List.length (ciFind_sound h).2
  simpa using hmap

lemma passesCutoff_nil {w : List Char} (hw : w ≠ []) : passesCutoff [] w = false := by
  have hw0 : w.length ≠ 0 := fun hc => hw (List.length_eq_zero.mp hc)
  unfold passesCutoff ratioPair matchingTotal
  simp only [List.length_nil, Nat.zero_add, mtGo]
  rw [if_neg hw0]
  simp only [decide_eq_false_iff_not]
  omega

/-- C5: in scoped mode with the document present and its text longer than
100 characters, the fuzzy fallback is evaluated only when the
case-insensitive literal search fails (a literal match yields `Exact`);
when it fails, the text is tokenized at single spaces and newlines and the
closest token by difflib ratio that reaches the 0.65 cutoff yields
`FuzzyMatch` ("Includes or Missed Suffixes") with that token as
equivalent, while if no token reaches the cutoff the status is `NotFound`
("Not Found"). -/
theorem c5_fuzzy_fallback (corpus : List (List Char × List Char))
    (part ref text : List Char)
    (hdoc : lookupA corpus ref = some text) (hlen : 100 < text.length) :
    (∀ m, ciFind part text = some m →
      (SET_DESC corpus part ref).status = "Exact") ∧
    (ciFind part text = none →
      (∀ tok, getCloseMatches part (splitSpNl text) = some tok →
        (SET_DESC corpus part ref).status = "Includes or Missed Suffixes" ∧
        (SET_DESC corpus part ref).equivalent = some tok ∧
        tok ∈ splitSpNl text ∧ passesCutoff tok part = true ∧
        ∀ u ∈ splitSpNl text, ratLe (ratioPair u part) (ratioPair tok part)) ∧
      ((∀ u ∈ splitSpNl text, passesCutoff u part = false) →
        (SET_DESC corpus part ref).status = "Not Found" ∧
        (SET_DESC corpus part ref).equivalent = none)) := by
  have hnle : ¬ text.length ≤ 100 := by omega
  refine ⟨?_, ?_⟩
  · intro m hm
    simp [SET_DESC, hdoc, hnle, hm]
  · intro hfind
    refine ⟨?_, ?_⟩
    · intro tok hgcm
      obtain ⟨hmem, hcut, hmax⟩ :=
        getCloseMatches_spec_some part (splitSpNl text) tok hgcm
      refine ⟨?_, ?_, hmem, hcut, hmax⟩ <;>
        simp [SET_DESC, hdoc, hnle, hfind, hgcm]
    · intro hall
      have hgcm := getCloseMatches_spec_none part (splitSpNl text) hall
      constructor <;> simp [SET_DESC, hdoc, hnle, hfind, hgcm]

def c5Text : List Char := "ABC-123".toList ++ (List.replicate 40 (" zw".toList)).flatten

def c5Corpus : List (List Char × List Char) := [(refU, c5Text)]

theorem c5_fuzzy_fallback_witness :
    (SET_DESC c5Corpus "ABC-124".toList refU).status =
      "Includes or Missed Suffixes" ∧
    (SET_DESC c5Corpus "ABC-124".toList refU).equivalent =
      some ("ABC-123".toList) := by
  have h := ((c5_fuzzy_fallback c5Corpus "ABC-124".toList refU c5Text rfl
    (by decide)).2 (by decide)).1 ("ABC-123".toList) (by decide)
  exact ⟨h.1, h.2.1⟩

/-- C8, amended: for every part and corpus, status `Exact` implies the
equivalent is present with the same length as the part identifier (hence
non-empty exactly when the identifier is non-empty), status `FuzzyMatch`
("Includes or Missed Suffixes") implies the equivalent is present and
non-empty whenever the identifier is non-empty, and status `Unreadable`
("OCR") or `MissingDocument` ("May be Broken") implies both the
equivalent and the similars are absent.  (The original claim fails only
for the empty part identifier, whose `Exact` equivalent is empty.) -/
theorem c8_invariant_amended (corpus : List (List Char × List Char))
    (part ref : List Char) :
    ((SET_DESC corpus part ref).status = "Exact" →
      ∃ m, (SET_DESC corpus part ref).equivalent = some m ∧
        m.length = part.length) ∧
    ((SET_DESC corpus part ref).status = "Includes or Missed Suffixes" →
      ∃ m, (SET_DESC corpus part ref).equivalent = some m ∧
        (part ≠ [] → m ≠ [])) ∧
    (((SET_DESC corpus part ref).status = "OCR" ∨
      (SET_DESC corpus part ref).status = "May be Broken") →
      (SET_DESC corpus part ref).equivalent = none ∧
      (SET_DESC corpus part ref).similars = none) := by
  cases hdoc : lookupA corpus ref with
  | none =>
    have h1 : (SET_DESC corpus part ref).status = "May be Broken" := by
      simp [SET_DESC, hdoc]
    have h2 : (SET_DESC corpus part ref).equivalent = none := by
      simp [SET_DESC, hdoc]
    have h3 : (SET_DESC corpus part ref).similars = none := by
      simp [SET_DESC, hdoc]
    exact ⟨fun h => absurd (h1.symm.trans h) (by decide),
           fun h => absurd (h1.symm.trans h) (by decide),
           fun _ => ⟨h2, h3⟩⟩
  | some text =>
    by_cases hlen : text.length ≤ 100
    · have h1 : (SET_DESC corpus part ref).status = "OCR" := by
        simp [SET_DESC, hdoc, hlen]
      have h2 : (SET_DESC corpus part ref).equivalent = none := by
        simp [SET_DESC, hdoc, hlen]
      have h3 : (SET_DESC corpus part ref).similars = none := by
        simp [SET_DESC, hdoc, hlen]
      exact ⟨fun h => absurd (h1.symm.trans h) (by decide),
             fun h => absurd (h1.symm.trans h) (by decide),
             fun _ => ⟨h2, h3⟩⟩
    · cases hfind : ciFind part text with
      | some m =>
        have h1 : (SET_DESC corpus part ref).status = "Exact" := by
          simp [SET_DESC, hdoc, hlen, hfind]
        have h2 : (SET_DESC corpus part ref).equivalent = some m := by
          simp [SET_DESC, hdoc, hlen, hfind]
        refine ⟨fun _ => ⟨m, h2, ciFind_length hfind⟩,
                fun h => absurd (h1.symm.trans h) (by decide),
                fun h => ?_⟩
        rcases h with h | h <;> exact absurd (h1.symm.trans h) (by decide)
      | none =>
        cases hgcm : getCloseMatches part (splitSpNl text) with
        | some tok =>
          have h1 : (SET_DESC corpus part ref).status =
              "Includes or Missed Suffixes" := by
            simp [SET_DESC, hdoc, hlen, hfind, hgcm]
          have h2 : (SET_DESC corpus part ref).equivalent = some tok := by
            simp [SET_DESC, hdoc, hlen, hfind, hgcm]
          have hcut :=
            (getCloseMatches_spec_some part (splitSpNl text) tok hgcm).2.1
          have hne : part ≠ [] → tok ≠ [] := by
            intro hp htok
            subst htok
            rw [passesCutoff_nil hp] at hcut
            exact absurd hcut (by decide)
          refine ⟨fun h => absurd (h1.symm.trans h) (by decide),
                  fun _ => ⟨tok, h2, hne⟩, fun h => ?_⟩
          rcases h with h | h <;> exact absurd (h1.symm.trans h) (by decide)
        | none =>
          have h1 : (SET_DESC corpus part ref).status = "Not Found" := by
            simp [SET_DESC, hdoc, hlen, hfind, hgcm]
          refine ⟨fun h => absurd (h1.symm.trans h) (by decide),
                  fun h => absurd (h1.symm.trans h) (by decide),
                  fun h => ?_⟩
          rcases h with h | h <;> exact absurd (h1.symm.trans h) (by decide)

theorem c8_invariant_amended_witness :
    ∃ m, (SET_DESC [(refU, aText101)] "a".toList refU).equivalent = some m ∧
      m.length = ("a".toList).length :=
  (c8_invariant_amended [(refU, aText101)] "a".toList refU).1 (by rfl)

lemma lookupA_insertA_ne (m : List (List Char × List Char)) (k v key : List Char)
    (h : k ≠ key) : lookupA (insertA m k v) key = lookupA m key := by
  induction m with
  | nil => simp [insertA, lookupA, h]
  | cons kv rest ih =>
    obtain ⟨k0, v0⟩ := kv
    simp only [insertA]
    by_cases hk : k0 = k
    · rw [if_pos hk]
      have hk0 : k0 ≠ key := fun hc => h (hk.symm.trans hc)
      simp only [lookupA]
      rw [if_neg hk0, if_neg hk0]
    · rw [if_neg hk]
      simp only [lookupA]
      by_cases hkey : k0 = key
      · rw [if_pos hkey, if_pos hkey]
      · rw [if_neg hkey, if_neg hkey]
        exact ih

lemma lookupA_insertA_self (m : List (List Char × List Char)) (k v : List Char) :
    lookupA (insertA m k v) k = some v := by
  induction m with
  | nil => simp [insertA, lookupA]
  | cons kv rest ih =>
    obtain ⟨k0, v0⟩ := kv
    simp only [insertA]
    by_cases hk : k0 = k
    · rw [if_pos hk]
      simp [lookupA, hk]
    · rw [if_neg hk]
      simp only [lookupA]
      rw [if_neg hk]
      exact ih

/-- Effect of processing one reference of a chunk: on fetch and extract
success the text is stored under the reference, otherwise the mapping is
unchanged. -/
def pdfStep {β : Type} (httpGet : List Char → Except FetchError β)
    (fitzText : β → Option (List Char))
    (pdfData : List (List Char × List Char)) (pdf : List Char) :
    List (List Char × List Char) :=
  match httpGet pdf with
  | Except.ok byt =>
    match fitzText byt with
    | some text => insertA pdfData pdf text
    | none => pdfData
  | Except.error _ => pdfData

lemma foldl_flatten_eq {α β : Type} (f : β → α → β) :
    ∀ (L : List (List α)) (b : β),
    L.foldl (fun acc l => l.foldl f acc) b = L.flatten.foldl f b := by
  intro L
  induction L with
  | nil => intro b; rfl
  | cons l ls ih =>
    intro b
    rw [List.foldl_cons, ih, List.flatten_cons, List.foldl_append]

lemma chunksGo_flatten {α : Type} :
    ∀ (fuel : Nat) (l : List α), l.length ≤ fuel → (chunksGo fuel l).flatten = l := by
  intro fuel
  induction fuel with
  | zero =>
    intro l hl
    have hnil : l = [] := List.eq_nil_of_length_eq_zero (Nat.le_zero.mp hl)
    subst hnil
    rfl
  | succ fuel ih =>
    intro l hl
    cases l with
    | nil => rfl
    | cons x xs =>
      have hl2 : xs.length + 1 ≤ fuel + 1 := by simpa using hl
      have h2 : ((x :: xs).drop 100).length ≤ fuel := by
        simp only [List.length_drop, List.length_cons]
        omega
      show ((x :: xs).take 100 :: chunksGo fuel ((x :: xs).drop 100)).flatten = x :: xs
      rw [List.flatten_cons, ih _ h2, List.take_append_drop]

lemma chunks100_flatten {α : Type} (l : List α) : (chunks100 l).flatten = l :=
  chunksGo_flatten l.length l (Nat.le_refl _)

lemma GetPDFText_eq_foldl {β : Type} (httpGet : List Char → Except FetchError β)
    (fitzText : β → Option (List Char)) (pdfs : List (List Char)) :
    GetPDFText httpGet fitzText pdfs = pdfs.foldl (pdfStep httpGet fitzText) [] := by
  have houter : GetPDFText httpGet fitzText pdfs =
      (chunks100 pdfs).foldl
        (fun pdfData chunk => chunk.foldl (pdfStep httpGet fitzText) pdfData) [] := by
    unfold GetPDFText
    apply List.foldl_ext
    intro acc chunk _
    rw [List.foldl_map]
    apply List.foldl_ext
    intro m pdf _
    cases hg : httpGet pdf with
    | ok byt => simp [GetPDFResponse, pdfStep, hg]
    | error e => simp [GetPDFResponse, pdfStep, hg]
  rw [houter, foldl_flatten_eq, chunks100_flatten]

lemma foldl_pdfStep_fail {β : Type} (httpGet : List Char → Except FetchError β)
    (fitzText : β → Option (List Char)) (ref : List Char)
    (hfail : (∃ e, httpGet ref = Except.error e) ∨
      (∃ b, httpGet ref = Except.ok b ∧ fitzText b = none)) :
    ∀ (l : List (List Char)) (init : List (List Char × List Char)),
    lookupA (l.foldl (pdfStep httpGet fitzText) init) ref = lookupA init ref := by
  intro l
  induction l with
  | nil => intro init; rfl
  | cons p rest ih =>
    intro init
    rw [List.foldl_cons, ih]
    by_cases hp : p = ref
    · subst hp
      rcases hfail with ⟨e, he⟩ | ⟨b, hb, hfb⟩
      · simp [pdfStep, he]
      · simp [pdfStep, hb, hfb]
    · cases hg : httpGet p with
      | error e => simp [pdfStep, hg]
      | ok b =>
        cases hfb : fitzText b with
        | none => simp [pdfStep, hg, hfb]
        | some t => simp [pdfStep, hg, hfb, lookupA_insertA_ne _ _ _ _ hp]

lemma foldl_pdfStep_success {β : Type} (httpGet : List Char → Except FetchError β)
    (fitzText : β → Option (List Char)) (ref : List Char) (b : β) (t : List Char)
    (hok : httpGet ref = Except.ok b) (hf : fitzText b = some t) :
    ∀ (l : List (List Char)) (init : List (List Char × List Char)),
    (ref ∈ l ∨ lookupA init ref = some t) →
    lookupA (l.foldl (pdfStep httpGet fitzText) init) ref = some t := by
  intro l
  induction l with
  | nil =>
    intro init h
    rcases h with h | h
    · exact absurd h (List.not_mem_nil ref)
    · exact h
  | cons p rest ih =>
    intro init h
    rw [List.foldl_cons]
    have hpres : lookupA init ref = some t →
        lookupA (pdfStep httpGet fitzText init p) ref = some t := by
      intro hinit
      by_cases hp : p = ref
      · subst hp
        simp [pdfStep, hok, hf, lookupA_insertA_self]
      · cases hg : httpGet p with
        | error e => simpa [pdfStep, hg] using hinit
        | ok b2 =>
          cases hfb : fitzText b2 with
          | none => simpa [pdfStep, hg, hfb] using hinit
          | some t2 =>
            simpa [pdfStep, hg, hfb, lookupA_insertA_ne _ _ _ _ hp] using hinit
    rcases h with hmem | hinit
    · rcases List.mem_cons.mp hmem with heq | hmem2
      · subst heq
        apply ih
        right
        simp [pdfStep, hok, hf, lookupA_insertA_self]
      · exact ih _ (Or.inl hmem2)
    · exact ih _ (Or.inr (hpres hinit))

/-- C6: a reference whose fetch fails (any transport, timeout or HTTP
error) or whose extract fails (unparsable payload) is omitted from the
corpus mapping built by `GetPDFText` — no explicit failure entry — and
such failures do not prevent any other reference of the batch whose fetch
and extract succeed from being present in the mapping with its extracted
text. -/
theorem c6_corpus_builder {β : Type} (httpGet : List Char → Except FetchError β)
    (fitzText : β → Option (List Char)) (pdfs : List (List Char)) :
    (∀ ref, ((∃ e, httpGet ref = Except.error e) ∨
        (∃ b, httpGet ref = Except.ok b ∧ fitzText b = none)) →
      lookupA (GetPDFText httpGet fitzText pdfs) ref = none) ∧
    (∀ ref b t, ref ∈ pdfs → httpGet ref = Except.ok b → fitzText b = some t →
      lookupA (GetPDFText httpGet fitzText pdfs) ref = some t) := by
  constructor
  · intro ref hfail
    rw [GetPDFText_eq_foldl, foldl_pdfStep_fail httpGet fitzText ref hfail pdfs []]
    rfl
  · intro ref b t hmem hok hf
    rw [GetPDFText_eq_foldl]
    exact foldl_pdfStep_success httpGet fitzText ref b t hok hf pdfs [] (Or.inl hmem)

def wBad : List Char := "bad".toList

def wOk : List Char := "ok".toList

def wGet : List Char → Except FetchError Nat :=
  fun r => if r = wBad then Except.error FetchError.timeout else Except.ok 7

def wText : List Char := "doc".toList

def wExtract : Nat → Option (List Char) := fun _ => some wText

theorem c6_corpus_builder_witness :
    lookupA (GetPDFText wGet wExtract [wBad, wOk]) wBad = none ∧
    lookupA (GetPDFText wGet wExtract [wBad, wOk]) wOk = some wText :=
  ⟨(c6_corpus_builder wGet wExtract [wBad, wOk]).1 wBad
      (Or.inl ⟨FetchError.timeout, rfl⟩),
   (c6_corpus_builder wGet wExtract [wBad, wOk]).2 wOk 7 wText
      (by decide) rfl rfl⟩

/-- C7: the fetcher never lets a failure escape: it is a total function
that, for any HTTP outcome, pairs the requested reference with the
payload on success and with `none` on timeout, non-2xx status or
transport error; the first component is always the reference itself. -/
theorem c7_fetcher_total {β : Type} (httpGet : List Char → Except FetchError β)
    (pdf : List Char) :
    (GetPDFResponse httpGet pdf).1 = pdf ∧
    (∀ e, httpGet pdf = Except.error e →
      GetPDFResponse httpGet pdf = (pdf, none)) ∧
    (∀ b, httpGet pdf = Except.ok b →
      GetPDFResponse httpGet pdf = (pdf, some b)) := by
  refine ⟨?_, ?_, ?_⟩
  · cases h : httpGet pdf <;> simp [GetPDFResponse, h]
  · intro e he
    simp [GetPDFResponse, he]
  · intro b hb
    simp [GetPDFResponse, hb]

theorem c7_fetcher_total_witness :
    GetPDFResponse wGet wBad = (wBad, none) ∧
    GetPDFResponse wGet wOk = (wOk, some 7) :=
  ⟨(c7_fetcher_total wGet wBad).2.1 FetchError.timeout rfl,
   (c7_fetcher_total wGet wOk).2.2 7 rfl⟩

/-- C9: the matcher writes only the STATUS, EQUIVALENT and SIMILARS
columns: the output has one row per input row in input order, and on
every row the part-identifier column, the document-reference column and
all remaining input columns are unchanged. -/
theorem c9_frame_effect (corpus : List (List Char × List Char))
    (rows : List PartRow) :
    (PN_Validation_New corpus rows).length = rows.length ∧
    ∀ i : Nat,
      ((PN_Validation_New corpus rows)[i]?).map (fun r => (r.part, r.ref, r.others)) =
      (rows[i]?).map (fun r => (r.part, r.ref, r.others)) := by
  constructor
  · simp [PN_Validation_New]
  · intro i
    simp only [PN_Validation_New, List.getElem?_map]
    cases rows[i]? <;> rfl
